import Mathlib

/-!
Shallow embedding of the disparity-range / epipolar-quality estimator of the
`cars` analysis notebook (`notebooks/epipolar_distributions.ipynb`).

Signals are lists of rationals (the notebook works on numpy float arrays; we
idealise IEEE floats by exact rationals).  `np.percentile` is embedded with its
linear-interpolation definition, `ndarray.mean`/`ndarray.std` as arithmetic
mean and population standard deviation, and `scipy.stats.binned_statistic_2d`
as equal-width binning over `[min, max]` with the upper edge closed on the last
bin and `NaN` (here `Option.none`) on empty cells for the mean/min/max
statistics.
-/

namespace Cars

/-- One tie point `(x_left, y_left, x_right, y_right)` as one row of the
`matches` array loaded by the notebook. -/
structure Correspondence where
  xl : ℚ
  yl : ℚ
  xr : ℚ
  yr : ℚ
deriving DecidableEq, Repr

/-- Cell 8 of the notebook: `epipolar_error = matches[:,1] - matches[:,3]`. -/
def epipolarError (m : List Correspondence) : List ℚ :=
  m.map fun c => c.yl - c.yr

/-- Cell 8 of the notebook: `disparity = matches[:,2] - matches[:,0]`. -/
def disparity (m : List Correspondence) : List ℚ :=
  m.map fun c => c.xr - c.xl

/-- Embedding of `np.min` on a nonempty array (junk value 0 on the empty
list, which numpy rejects). -/
def listMin : List ℚ → ℚ
  | [] => 0
  | a :: t => t.foldl Min.min a

/-- Embedding of `np.max` on a nonempty array (junk value 0 on the empty
list, which numpy rejects). -/
def listMax : List ℚ → ℚ
  | [] => 0
  | a :: t => t.foldl Max.max a

/-- Linear interpolation into a (sorted) list at fractional position `h`:
`t[i] + (h - i) * (t[i+1] - t[i])` with `i = ⌊h⌋`, clamped to the last
element.  This is the kernel of numpy's default percentile method. -/
def interp (t : List ℚ) (h : ℚ) : ℚ :=
  if (⌊h⌋).toNat + 1 < t.length then
    t.getD (⌊h⌋).toNat 0 +
      (h - ((⌊h⌋).toNat : ℚ)) * (t.getD ((⌊h⌋).toNat + 1) 0 - t.getD (⌊h⌋).toNat 0)
  else
    t.getD (t.length - 1) 0

/-- Embedding of `np.percentile(s, p)` (cell 11 of the notebook): sort the
signal and linearly interpolate at position `p / 100 * (N - 1)`.  Junk value 0
on the empty signal, which numpy rejects. -/
def percentile (s : List ℚ) (p : ℚ) : ℚ :=
  if s.length = 0 then 0
  else interp (s.insertionSort (· ≤ ·)) (p * ((s.length : ℚ) - 1) / 100)

/-- Embedding of `ndarray.mean()` (cell 14 of the notebook). -/
def mean (s : List ℚ) : ℚ :=
  s.sum / (s.length : ℚ)

/-- Embedding of the square of `ndarray.std()` (cell 14 of the notebook):
the population variance, mean of squared deviations from the mean. -/
def variance (s : List ℚ) : ℚ :=
  ((s.map fun a => (a - mean s) ^ 2).sum) / (s.length : ℚ)

/-- Embedding of `ndarray.std()` (cell 14 of the notebook): the square root
of the population variance. -/
noncomputable def stddev (s : List ℚ) : ℝ :=
  Real.sqrt ((variance s : ℚ) : ℝ)

/-- Cell 11 of the notebook, parametrised over the percentile pair (the
notebook uses 1 and 99): the combined display/analysis bounds for a raw and a
corrected signal,
`(min(np.min(cor), np.percentile(raw, lo)), max(np.max(cor), np.percentile(raw, hi)))`. -/
def combinedEnvelope (raw cor : List ℚ) (lo hi : ℚ) : ℚ × ℚ :=
  (Min.min (listMin cor) (percentile raw lo),
   Max.max (listMax cor) (percentile raw hi))

/-- Error kinds of the spec's §7. -/
inductive EstError where
  | InvalidParameter
  | ShapeMismatch
  | EmptyInput
deriving DecidableEq, Repr

/-- Result record of `RobustRangeEstimator.estimate`: the percentile envelope
and the unclipped summary statistics.  The `stdev` field of the spec is
carried as its square `var` (see `RangeEstimate.stdev`). -/
structure RangeEstimate where
  min : ℚ
  max : ℚ
  mean : ℚ
  var : ℚ
deriving DecidableEq, Repr

/-- Standard deviation reported by a `RangeEstimate`. -/
noncomputable def RangeEstimate.stdev (r : RangeEstimate) : ℝ :=
  Real.sqrt ((r.var : ℚ) : ℝ)

/-- Modelled from the spec: `RobustRangeEstimator.estimate` is absent from the
repository sources (the notebook computes its pieces inline in cells 11 and
14); per §4.1/§7 it validates the percentile parameters, rejects the empty
signal eagerly, and otherwise reports the percentile envelope together with
the unclipped mean and variance. -/
def estimate (s : List ℚ) (lo hi : ℚ) : Except EstError RangeEstimate :=
  if ¬ (0 ≤ lo ∧ lo < hi ∧ hi ≤ 100) then .error .InvalidParameter
  else if s.length = 0 then .error .EmptyInput
  else .ok ⟨percentile s lo, percentile s hi, mean s, variance s⟩

/-- Values of a signal kept by percentile clipping: the subset lying inside
the `[percentile lo, percentile hi]` envelope. -/
def trimmed (s : List ℚ) (lo hi : ℚ) : List ℚ :=
  s.filter fun a => percentile s lo ≤ a ∧ a ≤ percentile s hi

/-- Bin index of coordinate `c` among `n` equal-width bins over `[lo, hi]`,
as `scipy.stats.binned_statistic_2d` assigns it (cells 19 and 23 of the
notebook): the value sitting exactly on the upper edge goes into the last
bin, every other value into bin `⌊(c - lo) / (hi - lo) * n⌋`. -/
def binIndex (lo hi : ℚ) (n : ℕ) (c : ℚ) : ℕ :=
  if c = hi then n - 1 else (⌊(c - lo) / (hi - lo) * (n : ℚ)⌋).toNat

/-- Bin edges of `binned_statistic_2d` along one axis: `n + 1` equally spaced
values from `min l` to `max l` (numpy's `linspace`). -/
def binEdge (l : List ℚ) (n : ℕ) (i : ℕ) : ℚ :=
  listMin l + (i : ℚ) * (listMax l - listMin l) / (n : ℚ)

/-- Cell (column, row) index that `binned_statistic_2d` assigns to the `k`-th
point of the parallel coordinate sequences `x`, `y`. -/
def cellIdx (x y : List ℚ) (nx ny : ℕ) (k : ℕ) : ℕ × ℕ :=
  (binIndex (listMin x) (listMax x) nx (x.getD k 0),
   binIndex (listMin y) (listMax y) ny (y.getD k 0))

/-- Indices of the points that fall into cell `(i, j)` of the 2D binning. -/
def cellMembers (x y : List ℚ) (nx ny i j : ℕ) : List ℕ :=
  (List.range x.length).filter fun k => cellIdx x y nx ny k = (i, j)

/-- Statistics supported by the notebook's binned_statistic_2d calls:
`"mean"`, `"count"` (cell 19), `np.min`, `np.max` (cell 23). -/
inductive Stat where
  | mean
  | count
  | min
  | max
deriving DecidableEq, Repr

/-- Per-cell aggregate of `binned_statistic_2d`: `none` stands for the NaN
that scipy reports on cells the statistic was never evaluated on (empty cells
for `"mean"` and for callables such as `np.min`/`np.max`), while `"count"`
always yields a number — `0` on empty cells. -/
def applyStat : Stat → List ℚ → Option ℚ
  | .count, l => some (l.length : ℚ)
  | .mean, l => if l.length = 0 then none else some (mean l)
  | .min, l =>
    match l with
    | [] => none
    | a :: t => some (t.foldl Min.min a)
  | .max, l =>
    match l with
    | [] => none
    | a :: t => some (t.foldl Max.max a)

/-- Cell values of the 2D binned statistic over parallel sequences `x`, `y`,
`v` (cells 19 and 23 of the notebook). -/
def grid (x y v : List ℚ) (nx ny : ℕ) (s : Stat) : ℕ → ℕ → Option ℚ :=
  fun i j => applyStat s ((cellMembers x y nx ny i j).map fun k => v.getD k 0)

/-- Output of the 2D binning: the cell aggregates plus the bin edges of both
axes. -/
structure BinGrid where
  cells : ℕ → ℕ → Option ℚ
  xedges : ℕ → ℚ
  yedges : ℕ → ℚ

/-- Modelled from the spec: `SpatialBinner.bin2d` is absent from the
repository sources (the notebook calls `scipy.stats.binned_statistic_2d`
directly in cells 19 and 23); per §4.2/§7 it eagerly rejects parallel
sequences of differing lengths with `ShapeMismatch` and otherwise produces
the binned grid together with its bin edges. -/
def bin2d (x y v : List ℚ) (nx ny : ℕ) (s : Stat) : Except EstError BinGrid :=
  if x.length = y.length ∧ x.length = v.length then
    .ok ⟨grid x y v nx ny s, binEdge x nx, binEdge y ny⟩
  else .error .ShapeMismatch

/-- Cell 23 of the notebook: `disp_width = stats_dispmax_2d - stats_dispmin_2d`,
the per-cell difference of the max-statistic grid and the min-statistic grid
(NaN wherever either operand is NaN). -/
def dispWidthCell (x y v : List ℚ) (nx ny i j : ℕ) : Option ℚ :=
  match grid x y v nx ny .max i j, grid x y v nx ny .min i j with
  | some a, some b => some (a - b)
  | _, _ => none

/-- Concrete correspondence set of the spec's §8 scenario 6:
`[(0,0,1,0),(0,10,1,9),(0,100,1,0)]`. -/
def demoMatches : List Correspondence :=
  [⟨0, 0, 1, 0⟩, ⟨0, 10, 1, 9⟩, ⟨0, 100, 1, 0⟩]

/-! Basic facts about `foldl`-computed minima and maxima. -/

lemma le_foldl_max : ∀ (t : List ℚ) (a : ℚ), a ≤ t.foldl Max.max a
  | [], a => le_refl a
  | b :: t, a => le_trans (le_max_left a b) (le_foldl_max t (Max.max a b))

lemma foldl_min_le : ∀ (t : List ℚ) (a : ℚ), t.foldl Min.min a ≤ a
  | [], a => le_refl a
  | b :: t, a => le_trans (foldl_min_le t (Min.min a b)) (min_le_left a b)

lemma mem_le_foldl_max : ∀ (t : List ℚ) (a b : ℚ), b ∈ t → b ≤ t.foldl Max.max a
  | c :: t, a, b, h => by
    rcases List.mem_cons.mp h with rfl | h'
    · exact le_trans (le_max_right a b) (le_foldl_max t _)
    · exact mem_le_foldl_max t _ _ h'

lemma foldl_min_le_mem : ∀ (t : List ℚ) (a b : ℚ), b ∈ t → t.foldl Min.min a ≤ b
  | c :: t, a, b, h => by
    rcases List.mem_cons.mp h with rfl | h'
    · exact le_trans (foldl_min_le t _) (min_le_right a b)
    · exact foldl_min_le_mem t _ _ h'

lemma foldl_min_le_foldl_max (t : List ℚ) (a : ℚ) :
    t.foldl Min.min a ≤ t.foldl Max.max a :=
  le_trans (foldl_min_le t a) (le_foldl_max t a)

lemma listMin_le_of_mem {l : List ℚ} {a : ℚ} (h : a ∈ l) : listMin l ≤ a := by
  cases l with
  | nil => cases h
  | cons b t =>
    rcases List.mem_cons.mp h with rfl | h'
    · exact foldl_min_le t a
    · exact foldl_min_le_mem t b a h'

lemma le_listMax_of_mem {l : List ℚ} {a : ℚ} (h : a ∈ l) : a ≤ listMax l := by
  cases l with
  | nil => cases h
  | cons b t =>
    rcases List.mem_cons.mp h with rfl | h'
    · exact le_foldl_max t a
    · exact mem_le_foldl_max t b a h'

/-! Bounds on the arithmetic mean. -/

lemma sum_le_length_mul {s : List ℚ} {M : ℚ} (h : ∀ b ∈ s, b ≤ M) :
    s.sum ≤ (s.length : ℚ) * M := by
  induction s with
  | nil => simp
  | cons a t ih =>
    have ha : a ≤ M := h a (List.mem_cons_self a t)
    have ht : t.sum ≤ (t.length : ℚ) * M := ih fun b hb => h b (List.mem_cons_of_mem a hb)
    simp only [List.sum_cons, List.length_cons]
    push_cast
    linarith

lemma length_mul_le_sum {s : List ℚ} {M : ℚ} (h : ∀ b ∈ s, M ≤ b) :
    (s.length : ℚ) * M ≤ s.sum := by
  induction s with
  | nil => simp
  | cons a t ih =>
    have ha : M ≤ a := h a (List.mem_cons_self a t)
    have ht : (t.length : ℚ) * M ≤ t.sum := ih fun b hb => h b (List.mem_cons_of_mem a hb)
    simp only [List.sum_cons, List.length_cons]
    push_cast
    linarith

lemma listMin_le_mean {s : List ℚ} (h : s ≠ []) : listMin s ≤ mean s := by
  have hlen : 0 < (s.length : ℚ) := by
    exact_mod_cast List.length_pos.mpr h
  have hsum : (s.length : ℚ) * listMin s ≤ s.sum :=
    length_mul_le_sum fun b hb => listMin_le_of_mem hb
  rw [mean, le_div_iff₀ hlen]
  linarith

lemma mean_le_listMax {s : List ℚ} (h : s ≠ []) : mean s ≤ listMax s := by
  have hlen : 0 < (s.length : ℚ) := by
    exact_mod_cast List.length_pos.mpr h
  have hsum : s.sum ≤ (s.length : ℚ) * listMax s :=
    sum_le_length_mul fun b hb => le_listMax_of_mem hb
  rw [mean, div_le_iff₀ hlen]
  linarith

/-! Monotonicity of linear interpolation into a sorted list, hence of the
percentile function. -/

lemma sorted_getD_mono {t : List ℚ} (ht : t.Sorted (· ≤ ·)) {i j : ℕ}
    (hij : i ≤ j) (hj : j < t.length) : t.getD i 0 ≤ t.getD j 0 := by
  have hi : i < t.length := lt_of_le_of_lt hij hj
  rw [List.getD_eq_getElem?_getD, List.getElem?_eq_getElem hi,
      List.getD_eq_getElem?_getD, List.getElem?_eq_getElem hj]
  simp only [Option.getD_some]
  have hrel := ht.rel_get_of_le (a := ⟨i, hi⟩) (b := ⟨j, hj⟩) (Fin.mk_le_mk.mpr hij)
  simpa [List.get_eq_getElem] using hrel

lemma floor_toNat_cast_eq {h : ℚ} (h0 : 0 ≤ h) : (((⌊h⌋).toNat : ℚ)) = ((⌊h⌋ : ℤ) : ℚ) := by
  have hfl : (0 : ℤ) ≤ ⌊h⌋ := Int.floor_nonneg.mpr h0
  have heq : ((⌊h⌋).toNat : ℤ) = ⌊h⌋ := Int.toNat_of_nonneg hfl
  rw [← heq]
  norm_cast

lemma floor_toNat_cast_le {h : ℚ} (h0 : 0 ≤ h) : (((⌊h⌋).toNat : ℚ)) ≤ h := by
  rw [floor_toNat_cast_eq h0]
  exact Int.floor_le h

lemma lt_floor_toNat_add_one {h : ℚ} (h0 : 0 ≤ h) : h < ((⌊h⌋).toNat : ℚ) + 1 := by
  rw [floor_toNat_cast_eq h0]
  exact Int.lt_floor_add_one h

lemma interp_bounds {t : List ℚ} (ht : t.Sorted (· ≤ ·)) {h : ℚ} (h0 : 0 ≤ h)
    (hb : (⌊h⌋).toNat + 1 < t.length) :
    t.getD (⌊h⌋).toNat 0 ≤ interp t h ∧ interp t h ≤ t.getD ((⌊h⌋).toNat + 1) 0 := by
  have hd : t.getD (⌊h⌋).toNat 0 ≤ t.getD ((⌊h⌋).toNat + 1) 0 :=
    sorted_getD_mono ht (Nat.le_succ _) hb
  have hfrac0 : 0 ≤ h - ((⌊h⌋).toNat : ℚ) := by
    have := floor_toNat_cast_le h0; linarith
  have hfrac1 : h - ((⌊h⌋).toNat : ℚ) ≤ 1 := by
    have := lt_floor_toNat_add_one h0; linarith
  rw [interp, if_pos hb]
  constructor
  · nlinarith
  · nlinarith

lemma interp_mono {t : List ℚ} (ht : t.Sorted (· ≤ ·)) {h1 h2 : ℚ}
    (h0 : 0 ≤ h1) (h12 : h1 ≤ h2) : interp t h1 ≤ interp t h2 := by
  have h0' : 0 ≤ h2 := le_trans h0 h12
  have hi12 : (⌊h1⌋).toNat ≤ (⌊h2⌋).toNat :=
    Int.toNat_le_toNat (Int.floor_le_floor h12)
  by_cases hb1 : (⌊h1⌋).toNat + 1 < t.length
  · by_cases hb2 : (⌊h2⌋).toNat + 1 < t.length
    · rcases Nat.lt_or_ge (⌊h1⌋).toNat (⌊h2⌋).toNat with hlt | hge
      · calc interp t h1 ≤ t.getD ((⌊h1⌋).toNat + 1) 0 := (interp_bounds ht h0 hb1).2
          _ ≤ t.getD (⌊h2⌋).toNat 0 :=
              sorted_getD_mono ht (Nat.succ_le_of_lt hlt) (Nat.lt_of_succ_lt hb2)
          _ ≤ interp t h2 := (interp_bounds ht h0' hb2).1
      · have hieq : (⌊h2⌋).toNat = (⌊h1⌋).toNat := le_antisymm hge hi12
        have hd : t.getD (⌊h1⌋).toNat 0 ≤ t.getD ((⌊h1⌋).toNat + 1) 0 :=
          sorted_getD_mono ht (Nat.le_succ _) hb1
        rw [interp, interp, if_pos hb1, if_pos hb2, hieq]
        nlinarith
    · calc interp t h1 ≤ t.getD ((⌊h1⌋).toNat + 1) 0 := (interp_bounds ht h0 hb1).2
        _ ≤ t.getD (t.length - 1) 0 := by
            apply sorted_getD_mono ht (Nat.le_sub_one_of_lt hb1)
            exact Nat.sub_lt (Nat.lt_of_le_of_lt (Nat.zero_le _) hb1) Nat.one_pos
        _ = interp t h2 := by rw [interp, if_neg hb2]
  · have hb2 : ¬ (⌊h2⌋).toNat + 1 < t.length := by
      intro hcon
      exact hb1 (Nat.lt_of_le_of_lt (Nat.add_le_add_right hi12 1) hcon)
    rw [interp, interp, if_neg hb1, if_neg hb2]

lemma percentile_mono {s : List ℚ} (hs : s.length ≠ 0) {p q : ℚ}
    (hp : 0 ≤ p) (hpq : p ≤ q) : percentile s p ≤ percentile s q := by
  rw [percentile, percentile, if_neg hs, if_neg hs]
  have hlen1 : (1 : ℚ) ≤ (s.length : ℚ) := by
    exact_mod_cast Nat.one_le_iff_ne_zero.mpr hs
  have hnn : (0 : ℚ) ≤ (s.length : ℚ) - 1 := by linarith
  apply interp_mono (List.sorted_insertionSort _ s)
  · positivity
  · have : p * ((s.length : ℚ) - 1) ≤ q * ((s.length : ℚ) - 1) :=
      mul_le_mul_of_nonneg_right hpq hnn
    linarith

/-! Permutation invariance of the estimator's ingredients. -/

lemma insertionSort_congr_perm {s t : List ℚ} (h : s.Perm t) :
    s.insertionSort (· ≤ ·) = t.insertionSort (· ≤ ·) :=
  List.eq_of_perm_of_sorted
    ((List.perm_insertionSort _ s).trans (h.trans (List.perm_insertionSort _ t).symm))
    (List.sorted_insertionSort _ s) (List.sorted_insertionSort _ t)

lemma percentile_congr_perm {s t : List ℚ} (h : s.Perm t) (p : ℚ) :
    percentile s p = percentile t p := by
  rw [percentile, percentile, insertionSort_congr_perm h, h.length_eq]

lemma mean_congr_perm {s t : List ℚ} (h : s.Perm t) : mean s = mean t := by
  rw [mean, mean, h.sum_eq, h.length_eq]

lemma variance_congr_perm {s t : List ℚ} (h : s.Perm t) : variance s = variance t := by
  rw [variance, variance, mean_congr_perm h, h.length_eq,
    (h.map fun a => (a - mean t) ^ 2).sum_eq]

/-! Range facts about the bin-index computation. -/

lemma binIndex_lt {lo hi : ℚ} {n : ℕ} (hn : 1 ≤ n) {c : ℚ}
    (hlo : lo ≤ c) (hhi : c ≤ hi) : binIndex lo hi n c < n := by
  rw [binIndex]
  by_cases hc : c = hi
  · rw [if_pos hc]
    exact Nat.sub_lt hn Nat.one_pos
  · rw [if_neg hc]
    have hchi : c < hi := lt_of_le_of_ne hhi hc
    have hpos : (0 : ℚ) < hi - lo := by linarith
    have hn0 : (0 : ℚ) < (n : ℚ) := by exact_mod_cast hn
    have hr1 : (c - lo) / (hi - lo) < 1 := (div_lt_one hpos).mpr (by linarith)
    have hrn : (c - lo) / (hi - lo) * (n : ℚ) < (n : ℚ) := by nlinarith
    have hrnn : (0 : ℚ) ≤ (c - lo) / (hi - lo) * (n : ℚ) :=
      mul_nonneg (div_nonneg (by linarith) (le_of_lt hpos)) (le_of_lt hn0)
    have hfl : ⌊(c - lo) / (hi - lo) * (n : ℚ)⌋ < (n : ℤ) :=
      Int.floor_lt.mpr (by push_cast; exact hrn)
    have hfl0 : (0 : ℤ) ≤ ⌊(c - lo) / (hi - lo) * (n : ℚ)⌋ := Int.floor_nonneg.mpr hrnn
    omega

lemma getD_mem {l : List ℚ} {k : ℕ} (hk : k < l.length) : l.getD k 0 ∈ l := by
  rw [List.getD_eq_getElem?_getD, List.getElem?_eq_getElem hk]
  exact List.getElem_mem hk

lemma cellIdx_mem {x y : List ℚ} {nx ny : ℕ} (hnx : 1 ≤ nx) (hny : 1 ≤ ny)
    (hxy : x.length = y.length) {k : ℕ} (hk : k < x.length) :
    cellIdx x y nx ny k ∈ (Finset.range nx) ×ˢ (Finset.range ny) := by
  rw [Finset.mem_product, Finset.mem_range, Finset.mem_range]
  constructor
  · exact binIndex_lt hnx (listMin_le_of_mem (getD_mem hk)) (le_listMax_of_mem (getD_mem hk))
  · have hky : k < y.length := hxy ▸ hk
    exact binIndex_lt hny (listMin_le_of_mem (getD_mem hky)) (le_listMax_of_mem (getD_mem hky))

/-! Facts about the bin edges. -/

lemma binEdge_width (l : List ℚ) (n : ℕ) (i : ℕ) :
    binEdge l n (i + 1) - binEdge l n i = (listMax l - listMin l) / (n : ℚ) := by
  rw [binEdge, binEdge]
  push_cast
  ring

lemma binEdge_of_binIndex {l : List ℚ} {n : ℕ} (hn : 1 ≤ n) {c : ℚ}
    (h1 : listMin l ≤ c) (h2 : c ≤ listMax l) :
    binEdge l n (binIndex (listMin l) (listMax l) n c) ≤ c ∧
    c ≤ binEdge l n (binIndex (listMin l) (listMax l) n c + 1) := by
  have hn0 : (0 : ℚ) < (n : ℚ) := by exact_mod_cast hn
  by_cases hc : c = listMax l
  · rw [binIndex, if_pos hc]
    have hcast : ((n - 1 : ℕ) : ℚ) = (n : ℚ) - 1 := by
      push_cast [Nat.cast_sub hn]
      ring
    have hsucc : (n - 1) + 1 = n := Nat.sub_add_cancel hn
    have hd0 : 0 ≤ listMax l - listMin l := by
      rw [← hc] at h2 ⊢
      linarith
    constructor
    · rw [binEdge, hcast, hc]
      have hkey : ((n : ℚ) - 1) * (listMax l - listMin l) / n ≤ listMax l - listMin l := by
        rw [div_le_iff₀ hn0]
        nlinarith
      linarith
    · rw [binEdge, hsucc, hc]
      have hkey : (n : ℚ) * (listMax l - listMin l) / n = listMax l - listMin l := by
        field_simp
      linarith [hkey.ge]
  · rw [binIndex, if_neg hc]
    have hchi : c < listMax l := lt_of_le_of_ne h2 hc
    have hd : (0 : ℚ) < listMax l - listMin l := by linarith
    have hr0 : (0 : ℚ) ≤ (c - listMin l) / (listMax l - listMin l) * (n : ℚ) :=
      mul_nonneg (div_nonneg (by linarith) (le_of_lt hd)) (le_of_lt hn0)
    have hkey : (c - listMin l) / (listMax l - listMin l) * (n : ℚ) *
        ((listMax l - listMin l) / (n : ℚ)) = c - listMin l := by
      field_simp
    have hdn : (0 : ℚ) ≤ (listMax l - listMin l) / (n : ℚ) :=
      div_nonneg (le_of_lt hd) (le_of_lt hn0)
    constructor
    · rw [binEdge]
      have hle := mul_le_mul_of_nonneg_right (floor_toNat_cast_le hr0) hdn
      rw [hkey] at hle
      have : ((⌊(c - listMin l) / (listMax l - listMin l) * (n : ℚ)⌋).toNat : ℚ) *
          (listMax l - listMin l) / (n : ℚ) ≤ c - listMin l := by
        rw [mul_div_assoc]
        exact hle
      linarith
    · rw [binEdge]
      have hle := mul_le_mul_of_nonneg_right (le_of_lt (lt_floor_toNat_add_one hr0)) hdn
      rw [hkey] at hle
      have : c - listMin l ≤
          (((⌊(c - listMin l) / (listMax l - listMin l) * (n : ℚ)⌋).toNat + 1 : ℕ) : ℚ) *
          (listMax l - listMin l) / (n : ℚ) := by
        rw [mul_div_assoc]
        push_cast
        exact hle
      linarith

/-! Counting points across all cells. -/

lemma sum_filter_length {γ : Type} [DecidableEq γ] :
    ∀ (L : List ℕ) (f : ℕ → γ) (T : Finset γ), (∀ k ∈ L, f k ∈ T) →
      (∑ c in T, (L.filter fun k => f k = c).length) = L.length := by
  intro L
  induction L with
  | nil => intro f T _; simp
  | cons a L ih =>
    intro f T hmem
    have hstep : ∀ c ∈ T, ((a :: L).filter fun k => f k = c).length =
        (L.filter fun k => f k = c).length + (if f a = c then 1 else 0) := by
      intro c _
      by_cases hc : f a = c
      · simp [List.filter_cons, hc]
      · simp [List.filter_cons, hc]
    rw [Finset.sum_congr rfl hstep, Finset.sum_add_distrib,
      ih f T fun k hk => hmem k (List.mem_cons_of_mem a hk), Finset.sum_ite_eq,
      if_pos (hmem a (List.mem_cons_self a L))]
    simp [Nat.add_comm]

lemma cellMembers_total {x y : List ℚ} {nx ny : ℕ} (hnx : 1 ≤ nx) (hny : 1 ≤ ny)
    (hxy : x.length = y.length) :
    (∑ i in Finset.range nx, ∑ j in Finset.range ny,
      (cellMembers x y nx ny i j).length) = x.length := by
  rw [← Finset.sum_product']
  calc (∑ c in (Finset.range nx) ×ˢ (Finset.range ny), (cellMembers x y nx ny c.1 c.2).length)
      = ∑ c in (Finset.range nx) ×ˢ (Finset.range ny),
          ((List.range x.length).filter fun k => cellIdx x y nx ny k = c).length := by
        apply Finset.sum_congr rfl
        intro c hc
        rw [cellMembers]
    _ = (List.range x.length).length :=
        sum_filter_length (List.range x.length) (cellIdx x y nx ny) _
          fun k hk => cellIdx_mem hnx hny hxy (List.mem_range.mp hk)
    _ = x.length := List.length_range x.length

/-! Concrete evaluations shared by the witnesses below. -/

lemma demo_estimate_ok :
    estimate [0, 1, 100] 1 99 = .ok ⟨1 / 50, 4901 / 50, 101 / 3, 19802 / 9⟩ := by
  norm_num [estimate, percentile, interp, mean, variance, List.insertionSort,
    List.orderedInsert]

lemma demo_cell_empty : cellMembers [0, 1] [0, 1] 2 2 0 1 = [] := by
  norm_num [cellMembers, cellIdx, binIndex, listMin, listMax, List.range,
    List.range.loop, List.filter]
  all_goals decide

lemma demo_cell_full : cellMembers [0, 1] [0, 1] 2 2 0 0 = [0] := by
  norm_num [cellMembers, cellIdx, binIndex, listMin, listMax, List.range,
    List.range.loop, List.filter]

lemma demo_epipolar : epipolarError demoMatches = [0, 1, 100] := by
  norm_num [epipolarError, demoMatches]

lemma demo_disparity : disparity demoMatches = [1, 1, 1] := by
  norm_num [disparity, demoMatches]

/-! Claim theorems. -/

/-- C1: for every pair of signals (raw, corrected), the combined
display/analysis envelope produced when merging the two populations has lower
bound `min(percentile raw lo, min corrected)` and upper bound
`max(percentile raw hi, max corrected)`; in particular the envelope is
widened, never narrowed, by each population's contribution. -/
theorem combinedEnvelope_widens (raw cor : List ℚ) (lo hi : ℚ) :
    (combinedEnvelope raw cor lo hi).1 = Min.min (percentile raw lo) (listMin cor) ∧
    (combinedEnvelope raw cor lo hi).2 = Max.max (percentile raw hi) (listMax cor) ∧
    (combinedEnvelope raw cor lo hi).1 ≤ listMin cor ∧
    (combinedEnvelope raw cor lo hi).1 ≤ percentile raw lo ∧
    listMax cor ≤ (combinedEnvelope raw cor lo hi).2 ∧
    percentile raw hi ≤ (combinedEnvelope raw cor lo hi).2 := by
  simp only [combinedEnvelope]
  exact ⟨min_comm _ _, max_comm _ _, min_le_left _ _, min_le_right _ _,
    le_max_left _ _, le_max_right _ _⟩

/-- C2: the `mean` and `stdev` fields of the `RangeEstimate` returned by
`estimate` are computed over the full unclipped signal; percentile clipping
affects only the min/max envelope.  Concretely, the mean of the
percentile-trimmed subset of `[0, 1, 100]` differs from the reported
unclipped mean. -/
theorem estimate_stats_unclipped :
    (∀ (s : List ℚ) (lo hi : ℚ) (r : RangeEstimate), estimate s lo hi = .ok r →
      r.mean = mean s ∧ r.var = variance s ∧
      RangeEstimate.stdev r = Real.sqrt ((variance s : ℚ) : ℝ)) ∧
    mean (trimmed [0, 1, 100] 1 99) ≠ mean [0, 1, 100] := by
  constructor
  · intro s lo hi r hok
    rw [estimate] at hok
    split at hok
    case isTrue => cases hok
    case isFalse =>
      split at hok
      case isTrue => cases hok
      case isFalse => cases hok; exact ⟨rfl, rfl, rfl⟩
  · norm_num [trimmed, mean, percentile, interp, List.insertionSort,
      List.orderedInsert, List.filter]

/-- Witness for C2 at signal `[0, 1, 100]` with percentiles 1/99. -/
theorem estimate_stats_unclipped_witness :
    (101 : ℚ) / 3 = mean [0, 1, 100] ∧ (19802 : ℚ) / 9 = variance [0, 1, 100] ∧
    RangeEstimate.stdev ⟨1 / 50, 4901 / 50, 101 / 3, 19802 / 9⟩ =
      Real.sqrt ((variance [0, 1, 100] : ℚ) : ℝ) :=
  estimate_stats_unclipped.1 [0, 1, 100] 1 99 ⟨1 / 50, 4901 / 50, 101 / 3, 19802 / 9⟩
    demo_estimate_ok

/-- C3 counterexample: on the signal `[0, 0, 100]` with the valid percentile
pair (1, 50), `estimate` reports the envelope `[0, 0]` but the unclipped mean
`100/3`, so `min ≤ mean ≤ max` fails. -/
theorem estimate_mean_above_envelope :
    estimate [0, 0, 100] 1 50 = .ok ⟨0, 0, 100 / 3, 20000 / 9⟩ ∧
    ¬ ((100 : ℚ) / 3 ≤ 0) := by
  constructor
  · norm_num [estimate, percentile, interp, mean, variance, List.insertionSort,
      List.orderedInsert]
  · norm_num

/-- C3 (amended): whenever `estimate` succeeds, the envelope satisfies
`min ≤ max` and `stdev ≥ 0`, and the unclipped mean lies between the signal's
actual minimum and maximum (though not necessarily inside the
percentile-clipped envelope). -/
theorem estimate_invariants {s : List ℚ} {lo hi : ℚ} {r : RangeEstimate}
    (hok : estimate s lo hi = .ok r) :
    r.min ≤ r.max ∧ 0 ≤ RangeEstimate.stdev r ∧
    listMin s ≤ r.mean ∧ r.mean ≤ listMax s := by
  rw [estimate] at hok
  split at hok
  case isTrue => cases hok
  case isFalse hp =>
    have hp' : 0 ≤ lo ∧ lo < hi ∧ hi ≤ 100 := not_not.mp hp
    split at hok
    case isTrue => cases hok
    case isFalse hs =>
      have hs' : s ≠ [] := fun hnil => hs (by rw [hnil]; rfl)
      cases hok
      exact ⟨percentile_mono hs hp'.1 (le_of_lt hp'.2.1), Real.sqrt_nonneg _,
        listMin_le_mean hs', mean_le_listMax hs'⟩

/-- Witness for C3 (amended) at signal `[0, 1, 100]` with percentiles 1/99. -/
theorem estimate_invariants_witness :
    (1 : ℚ) / 50 ≤ 4901 / 50 ∧
    0 ≤ RangeEstimate.stdev ⟨1 / 50, 4901 / 50, 101 / 3, 19802 / 9⟩ ∧
    listMin [0, 1, 100] ≤ 101 / 3 ∧ (101 : ℚ) / 3 ≤ listMax [0, 1, 100] :=
  estimate_invariants demo_estimate_ok

/-- C4: a 2D count binning of N points sums to exactly N over all cells — no
point is dropped and none is counted twice. -/
theorem bin2d_count_total {x y v : List ℚ} {nx ny : ℕ} {g : BinGrid}
    (hnx : 1 ≤ nx) (hny : 1 ≤ ny)
    (hok : bin2d x y v nx ny .count = .ok g) :
    (∑ i in Finset.range nx, ∑ j in Finset.range ny, (g.cells i j).getD 0) =
      (x.length : ℚ) := by
  rw [bin2d] at hok
  split at hok
  case isFalse => cases hok
  case isTrue hlen =>
    cases hok
    calc (∑ i in Finset.range nx, ∑ j in Finset.range ny,
          ((grid x y v nx ny .count i j).getD 0))
        = ∑ i in Finset.range nx, ∑ j in Finset.range ny,
            ((cellMembers x y nx ny i j).length : ℚ) := by
          apply Finset.sum_congr rfl
          intro i _
          apply Finset.sum_congr rfl
          intro j _
          simp [grid, applyStat]
      _ = (x.length : ℚ) := by exact_mod_cast cellMembers_total hnx hny hlen.1

/-- Witness for C4 on two points in a 2×2 grid. -/
theorem bin2d_count_total_witness :
    (∑ i in Finset.range 2, ∑ j in Finset.range 2,
      ((BinGrid.mk (grid [0, 1] [0, 1] [5, 7] 2 2 .count) (binEdge [0, 1] 2)
        (binEdge [0, 1] 2)).cells i j).getD 0) = (([0, 1] : List ℚ).length : ℚ) :=
  @bin2d_count_total [0, 1] [0, 1] [5, 7] 2 2 _ (by norm_num) (by norm_num) rfl

/-- C5: bin edges are `n` equal-width intervals over `[min l, max l]` for each
axis independently, every in-range coordinate falls in the cell its index
names, and a coordinate exactly at the maximum edge is assigned to the last
bin rather than treated as out of range. -/
theorem binning_edges_spec {l : List ℚ} {n : ℕ} (hn : 1 ≤ n) {c : ℚ} (hc : c ∈ l) :
    (∀ i : ℕ, binEdge l n (i + 1) - binEdge l n i = (listMax l - listMin l) / (n : ℚ)) ∧
    binIndex (listMin l) (listMax l) n c < n ∧
    binEdge l n (binIndex (listMin l) (listMax l) n c) ≤ c ∧
    c ≤ binEdge l n (binIndex (listMin l) (listMax l) n c + 1) ∧
    (c = listMax l → binIndex (listMin l) (listMax l) n c = n - 1) := by
  have h1 := listMin_le_of_mem hc
  have h2 := le_listMax_of_mem hc
  exact ⟨fun i => binEdge_width l n i, binIndex_lt hn h1 h2,
    (binEdge_of_binIndex hn h1 h2).1, (binEdge_of_binIndex hn h1 h2).2,
    fun hmax => by rw [binIndex, if_pos hmax]⟩

/-- Witness for C5 at the axis list `[0, 1]` with 2 bins and the coordinate 1
sitting exactly on the maximum edge. -/
theorem binning_edges_spec_witness :
    (∀ i : ℕ, binEdge [0, 1] 2 (i + 1) - binEdge [0, 1] 2 i =
      (listMax [0, 1] - listMin [0, 1]) / (2 : ℚ)) ∧
    binIndex (listMin [0, 1]) (listMax [0, 1]) 2 1 < 2 ∧
    binEdge [0, 1] 2 (binIndex (listMin [0, 1]) (listMax [0, 1]) 2 1) ≤ 1 ∧
    (1 : ℚ) ≤ binEdge [0, 1] 2 (binIndex (listMin [0, 1]) (listMax [0, 1]) 2 1 + 1) ∧
    ((1 : ℚ) = listMax [0, 1] → binIndex (listMin [0, 1]) (listMax [0, 1]) 2 1 = 2 - 1) :=
  binning_edges_spec (by norm_num) (by norm_num)

/-- C6: `estimate` returns identical results on any permutation of the input
signal. -/
theorem estimate_perm_invariant {s t : List ℚ} (h : s.Perm t) (lo hi : ℚ) :
    estimate s lo hi = estimate t lo hi := by
  rw [estimate, estimate, h.length_eq, percentile_congr_perm h lo,
    percentile_congr_perm h hi, mean_congr_perm h, variance_congr_perm h]

/-- Witness for C6 on the swapped two-element signal. -/
theorem estimate_perm_invariant_witness :
    estimate [0, 1] 5 95 = estimate [1, 0] 5 95 :=
  estimate_perm_invariant (List.Perm.swap 1 0 []) 5 95

/-- C7 counterexample: with the `count` statistic, a cell containing zero
correspondences reports the plain number `0`, not a distinguished no-data
sentinel. -/
theorem count_zero_on_empty_cell :
    cellMembers [0, 1] [0, 1] 2 2 0 1 = [] ∧
    grid [0, 1] [0, 1] [5, 7] 2 2 .count 0 1 = some 0 := by
  refine ⟨demo_cell_empty, ?_⟩
  simp [grid, demo_cell_empty, applyStat]

/-- C7 (amended): a cell containing zero correspondences reports the no-data
sentinel (NaN, embedded as `none`) for the `mean`, `min` and `max` statistics;
the `count` statistic instead reports `0`, the true count of an empty cell. -/
theorem empty_cell_sentinel {x y v : List ℚ} {nx ny i j : ℕ}
    (h : cellMembers x y nx ny i j = []) :
    grid x y v nx ny .mean i j = none ∧ grid x y v nx ny .min i j = none ∧
    grid x y v nx ny .max i j = none ∧ grid x y v nx ny .count i j = some 0 := by
  refine ⟨?_, ?_, ?_, ?_⟩ <;> simp [grid, h, applyStat]

/-- Witness for C7 (amended) at the empty cell (0, 1) of the demo binning. -/
theorem empty_cell_sentinel_witness :
    grid [0, 1] [0, 1] [5, 7] 2 2 .mean 0 1 = none ∧
    grid [0, 1] [0, 1] [5, 7] 2 2 .min 0 1 = none ∧
    grid [0, 1] [0, 1] [5, 7] 2 2 .max 0 1 = none ∧
    grid [0, 1] [0, 1] [5, 7] 2 2 .count 0 1 = some 0 :=
  empty_cell_sentinel demo_cell_empty

/-- C8: `estimate` on the empty signal fails with `EmptyInput`, and `bin2d`
on parallel sequences of differing lengths fails with `ShapeMismatch`; both
errors are detected eagerly and no partial result is produced. -/
theorem errors_eager :
    estimate ([] : List ℚ) 1 99 = .error .EmptyInput ∧
    (∀ (x y v : List ℚ) (nx ny : ℕ) (s : Stat),
      ¬ (x.length = y.length ∧ x.length = v.length) →
      bin2d x y v nx ny s = .error .ShapeMismatch) := by
  constructor
  · norm_num [estimate]
  · intro x y v nx ny s h
    rw [bin2d, if_neg h]

/-- Witness for C8 on a concrete length mismatch. -/
theorem errors_eager_witness :
    bin2d [0, 1] [0] [5, 7] 2 2 .count = .error .ShapeMismatch :=
  errors_eager.2 [0, 1] [0] [5, 7] 2 2 .count (by norm_num)

/-- C9 counterexample: the unclipped standard deviation of the epipolar-error
signal `[0, 1, 100]` of the demo correspondences is `√(19802/9) ≈ 46.91`,
which is more than 2 away from the claimed 44.57. -/
theorem demo_stdev_not_44_57 :
    (2 : ℝ) < |stddev (epipolarError demoMatches) - 44.57| := by
  have hvar : variance (epipolarError demoMatches) = 19802 / 9 := by
    rw [demo_epipolar]
    norm_num [variance, mean]
  have h1 : (46.8 : ℝ) ≤ stddev (epipolarError demoMatches) := by
    rw [stddev, hvar]
    rw [show (((19802 / 9 : ℚ)) : ℝ) = 19802 / 9 by norm_num]
    rw [Real.le_sqrt' (by norm_num)]
    norm_num
  have h2 := le_abs_self (stddev (epipolarError demoMatches) - 44.57)
  linarith

/-- C9 (amended): on the demo correspondences the disparity signal is
`[1, 1, 1]` with `RangeEstimate {min 1, max 1, mean 1, stdev 0}`; the
epipolar-error signal is `[0, 1, 100]`, whose unclipped mean is ≈ 33.67 and
whose unclipped standard deviation is ≈ 46.91 (not 44.57). -/
theorem demo_scenario :
    disparity demoMatches = [1, 1, 1] ∧
    estimate (disparity demoMatches) 1 99 = .ok ⟨1, 1, 1, 0⟩ ∧
    RangeEstimate.stdev ⟨1, 1, 1, 0⟩ = 0 ∧
    epipolarError demoMatches = [0, 1, 100] ∧
    |mean (epipolarError demoMatches) - 3367 / 100| < 1 / 100 ∧
    (469 : ℝ) / 10 < stddev (epipolarError demoMatches) ∧
    stddev (epipolarError demoMatches) < 4692 / 100 := by
  have hvar : variance (epipolarError demoMatches) = 19802 / 9 := by
    rw [demo_epipolar]
    norm_num [variance, mean]
  refine ⟨demo_disparity, ?_, ?_, demo_epipolar, ?_, ?_, ?_⟩
  · rw [demo_disparity]
    norm_num [estimate, percentile, interp, mean, variance, List.insertionSort,
      List.orderedInsert]
  · rw [RangeEstimate.stdev]
    norm_num [Real.sqrt_zero]
  · rw [demo_epipolar]
    rw [show mean [(0 : ℚ), 1, 100] = 101 / 3 by norm_num [mean]]
    rw [abs_lt]
    constructor <;> norm_num
  · rw [stddev, hvar]
    rw [show (((19802 / 9 : ℚ)) : ℝ) = 19802 / 9 by norm_num]
    rw [Real.lt_sqrt (by norm_num)]
    norm_num
  · rw [stddev, hvar]
    rw [show (((19802 / 9 : ℚ)) : ℝ) = 19802 / 9 by norm_num]
    rw [Real.sqrt_lt' (by norm_num)]
    norm_num

/-- C10: the per-cell disparity range-width grid is the per-cell maximum grid
minus the per-cell minimum grid over the same binning, so an empty cell has
no width (NaN) and every cell containing at least one correspondence has
width ≥ 0. -/
theorem dispWidth_nonneg {x y v : List ℚ} {nx ny i j : ℕ} :
    (cellMembers x y nx ny i j = [] → dispWidthCell x y v nx ny i j = none) ∧
    (cellMembers x y nx ny i j ≠ [] →
      ∃ w, dispWidthCell x y v nx ny i j = some w ∧ 0 ≤ w) := by
  constructor
  · intro h
    simp [dispWidthCell, grid, h, applyStat]
  · intro h
    obtain ⟨k, ks, hk⟩ := List.exists_cons_of_ne_nil h
    refine ⟨((ks.map fun m => v.getD m 0).foldl Max.max (v.getD k 0)) -
      ((ks.map fun m => v.getD m 0).foldl Min.min (v.getD k 0)), ?_, ?_⟩
    · simp [dispWidthCell, grid, hk, applyStat, List.map_cons]
    · exact sub_nonneg.mpr (foldl_min_le_foldl_max _ _)

/-- Witness for C10 at a nonempty cell of the demo binning. -/
theorem dispWidth_nonneg_witness :
    ∃ w, dispWidthCell [0, 1] [0, 1] [5, 7] 2 2 0 0 = some w ∧ 0 ≤ w :=
  dispWidth_nonneg.2 (by rw [demo_cell_full]; exact List.cons_ne_nil 0 [])

end Cars

